import Mathlib

/-!
Verification of the quantitative-computation core of the Quant-Strategies
repository.  JavaScript numbers are modelled as real numbers; `Math.exp`,
`Math.sqrt`, `Math.log` become `Real.exp`, `Real.sqrt`, `Real.log`.
Division by zero follows the Lean convention `x / 0 = 0` (JavaScript would
produce `Infinity`/`NaN`; no settled claim depends on that difference except
where noted).  Randomness (`Math.random` / the Box-Muller helper
`randomNormal`) is modelled by explicit streams of draws passed as function
arguments, so every simulated path is a deterministic function of its
parameters and its stream of shocks.
-/

open Filter

/-! ### DistributionLibrary: the Abramowitz-Stegun normal CDF

Source: `src/features/black_scholes/BlackScholesModel.tsx` lines 8-13
(an identical copy lives in
`src/features/binomial_option_pricing/BinomialOptionPricingModel.tsx`
lines 8-13). -/

/-- The variable `t = 1 / (1 + 0.2316419 * Math.abs(x))` of the source. -/
noncomputable def normCdfT (x : ℝ) : ℝ := 1 / (1 + 0.2316419 * |x|)

/-- The variable `prob = d * t * (0.3193815 + t * (-0.3565638 + t * (1.781478
+ t * (-1.821256 + t * 1.330274))))` of the source, where
`d = 0.3989423 * Math.exp(-x * x / 2)`. -/
noncomputable def normCdfProb (x : ℝ) : ℝ :=
  (0.3989423 * Real.exp (-x * x / 2)) * normCdfT x *
    (0.3193815 + normCdfT x * (-0.3565638 + normCdfT x *
      (1.781478 + normCdfT x * (-1.821256 + normCdfT x * 1.330274))))

/-- `normalCDF` from the source: `return x > 0 ? 1 - prob : prob`. -/
noncomputable def normalCDF (x : ℝ) : ℝ :=
  if x > 0 then 1 - normCdfProb x else normCdfProb x

/-! ### ClosedFormPricer

Source: the `callPrice`/`putPrice` `useMemo` of
`src/features/black_scholes/BlackScholesModel.tsx` lines 22-35, taken as a
function of the already-converted decimal rate and volatility, and the helper
`blackScholesCall` of
`src/features/binomial_option_pricing/BinomialOptionPricingModel.tsx`
lines 14-19. -/

/-- The Black-Scholes `d1` term. -/
noncomputable def bsD1 (S K T r sigma : ℝ) : ℝ :=
  (Real.log (S / K) + (r + 0.5 * sigma ^ 2) * T) / (sigma * Real.sqrt T)

/-- The Black-Scholes `d2` term. -/
noncomputable def bsD2 (S K T r sigma : ℝ) : ℝ :=
  bsD1 S K T r sigma - sigma * Real.sqrt T

/-- The `(callPrice, putPrice)` pair computed by the BlackScholesModel
component: `if (T <= 0 || sigmaDecimal <= 0) return { callPrice: 0,
putPrice: 0 }`, otherwise the Black-Scholes-Merton formulas. -/
noncomputable def blackScholesPrices (S K T r sigma : ℝ) : ℝ × ℝ :=
  if T ≤ 0 ∨ sigma ≤ 0 then (0, 0)
  else
    (S * normalCDF (bsD1 S K T r sigma) -
       K * Real.exp (-r * T) * normalCDF (bsD2 S K T r sigma),
     K * Real.exp (-r * T) * normalCDF (-bsD2 S K T r sigma) -
       S * normalCDF (-bsD1 S K T r sigma))

/-- `blackScholesCall` from the binomial-pricing source file:
`if (T <= 0 || sigma <= 0) return Math.max(0, S - K * Math.exp(-r * T))`,
otherwise the call formula. -/
noncomputable def blackScholesCall (S K T r sigma : ℝ) : ℝ :=
  if T ≤ 0 ∨ sigma ≤ 0 then max 0 (S - K * Real.exp (-r * T))
  else S * normalCDF (bsD1 S K T r sigma) -
    K * Real.exp (-r * T) * normalCDF (bsD2 S K T r sigma)

/-- The exact rational value of the approximation at `0`:
`0.3989423 * 1 * (0.3193815 - 0.3565638 + 1.781478 - 1.821256 + 1.330274)`. -/
lemma normCdfProb_zero : normCdfProb 0 = 0.49999985009951 := by
  unfold normCdfProb normCdfT
  norm_num

lemma normalCDF_zero : normalCDF 0 = 0.49999985009951 := by
  unfold normalCDF
  rw [if_neg (by norm_num)]
  exact normCdfProb_zero

/-- The polynomial part is even in `x`, so `prob` is symmetric. -/
lemma normCdfProb_neg (x : ℝ) : normCdfProb (-x) = normCdfProb x := by
  unfold normCdfProb normCdfT
  rw [abs_neg]
  ring_nf

/-- Claim C9, counterexample: the source approximation does not satisfy
`normalCDF(0) = 0.5` exactly; its value at `0` is the rational number
`0.49999985009951`. -/
theorem C9_normalCDF_zero_ne_half : normalCDF 0 ≠ 0.5 := by
  rw [normalCDF_zero]; norm_num

/-- Claim C9, amended: `normalCDF(0) = 0.5` holds within `1e-6` (not exactly),
and for every `x` the symmetry `normalCDF(x) + normalCDF(-x) = 1` holds
within `1e-6`; for `x ≠ 0` the sum is exactly `1`. -/
theorem C9_normalCDF_symmetry :
    |normalCDF 0 - 0.5| ≤ 1e-6 ∧
    (∀ x : ℝ, |normalCDF x + normalCDF (-x) - 1| ≤ 1e-6) ∧
    (∀ x : ℝ, x ≠ 0 → normalCDF x + normalCDF (-x) = 1) := by
  have hsum : ∀ x : ℝ, x ≠ 0 → normalCDF x + normalCDF (-x) = 1 := by
    intro x hx
    rcases lt_or_gt_of_ne hx with hneg | hpos
    · unfold normalCDF
      rw [if_neg (not_lt.mpr hneg.le), if_pos (by linarith), normCdfProb_neg]
      ring
    · unfold normalCDF
      rw [if_pos hpos, if_neg (by simp [not_lt]; linarith), normCdfProb_neg]
      ring
  refine ⟨by rw [normalCDF_zero, abs_le]; constructor <;> norm_num, ?_, hsum⟩
  intro x
  rcases eq_or_ne x 0 with rfl | hx
  · rw [neg_zero, normalCDF_zero, abs_le]
    constructor <;> norm_num
  · rw [hsum x hx]
    norm_num

/-- Claim C1, counterexample: with `S = 100`, `K = 105`, `T = 0`, `r = 0.05`,
`σ = 0.2` the component pricer returns put price `0`, not the intrinsic value
`max(0, K - S) = 5`. -/
theorem C1_counterexample :
    (blackScholesPrices 100 105 0 0.05 0.2).2 ≠ max 0 ((105 : ℝ) - 100) := by
  unfold blackScholesPrices
  rw [if_pos (Or.inl le_rfl)]
  norm_num

/-- Claim C1, amended: for every input with `T ≤ 0` or `σ ≤ 0` the component
pricer returns `callPrice = putPrice = 0` (not the intrinsic values), while
the auxiliary `blackScholesCall` of the binomial module returns the
discounted intrinsic value `max(0, S - K·e^{-rT})`. -/
theorem C1_degenerate_fallback (S K T r sigma : ℝ)
    (h : T ≤ 0 ∨ sigma ≤ 0) :
    blackScholesPrices S K T r sigma = (0, 0) ∧
    blackScholesCall S K T r sigma = max 0 (S - K * Real.exp (-r * T)) := by
  constructor
  · unfold blackScholesPrices; rw [if_pos h]
  · unfold blackScholesCall; rw [if_pos h]

/-- Witness for C1: the degenerate branch at `S = 100`, `K = 105`, `T = 0`,
`r = 0.05`, `σ = 0.2`. -/
theorem C1_degenerate_fallback_witness :
    ((0 : ℝ) ≤ 0 ∨ (0.2 : ℝ) ≤ 0) ∧
    (blackScholesPrices 100 105 0 0.05 0.2 = (0, 0) ∧
     blackScholesCall 100 105 0 0.05 0.2 =
       max 0 (100 - 105 * Real.exp (-(0.05) * 0))) :=
  ⟨Or.inl le_rfl, C1_degenerate_fallback 100 105 0 0.05 0.2 (Or.inl le_rfl)⟩

/-! ### LatticePricer: Cox-Ross-Rubinstein binomial tree

Source: `calculateBinomialPrice` in
`src/features/binomial_option_pricing/BinomialOptionPricingModel.tsx`
lines 21-44.  The in-place array update
`prices[i] = (p * prices[i] + (1 - p) * prices[i + 1]) * Math.exp(-r * dt)`
reads only entries not yet overwritten in the current sweep, so one sweep is
the `zipWith` of the old layer with its tail. -/

/-- `dt = T / steps`. -/
noncomputable def crrDt (T : ℝ) (steps : ℕ) : ℝ := T / steps

/-- `u = Math.exp(sigma * Math.sqrt(dt))`. -/
noncomputable def crrU (T sigma : ℝ) (steps : ℕ) : ℝ :=
  Real.exp (sigma * Real.sqrt (crrDt T steps))

/-- `d = 1 / u`. -/
noncomputable def crrD (T sigma : ℝ) (steps : ℕ) : ℝ := 1 / crrU T sigma steps

/-- `p = (Math.exp(r * dt) - d) / (u - d)`. -/
noncomputable def crrP (T r sigma : ℝ) (steps : ℕ) : ℝ :=
  (Real.exp (r * crrDt T steps) - crrD T sigma steps) /
    (crrU T sigma steps - crrD T sigma steps)

/-- The terminal layer: `prices[i] = Math.max(0, S * u ** (steps - i) * d ** i
- K)` for `i = 0 .. steps`. -/
noncomputable def crrTerminal (S K u d : ℝ) (steps : ℕ) : List ℝ :=
  (List.range (steps + 1)).map fun i => max 0 (S * u ^ (steps - i) * d ^ i - K)

/-- One backward-induction sweep of the source loop over a layer. -/
noncomputable def crrLayerStep (p disc : ℝ) (l : List ℝ) : List ℝ :=
  List.zipWith (fun a b => (p * a + (1 - p) * b) * disc) l l.tail

/-- `calculateBinomialPrice` from the source: the no-arbitrage guard
`if (p < 0 || p > 1) return 0`, the terminal payoffs, and `steps` sweeps of
backward induction, returning the root entry. -/
noncomputable def calculateBinomialPrice (S K T r sigma : ℝ) (steps : ℕ) : ℝ :=
  if crrP T r sigma steps < 0 ∨ crrP T r sigma steps > 1 then 0
  else
    ((crrLayerStep (crrP T r sigma steps) (Real.exp (-r * crrDt T steps)))^[steps]
      (crrTerminal S K (crrU T sigma steps) (crrD T sigma steps) steps)).headD 0

/-- Modelled from the spec for the refinement claim C3: node value after `k`
backward-induction steps, where each step replaces a node value by
`e^(-r dt) * (p * child_up + (1 - p) * child_down)` and level `0` holds the
terminal payoffs. -/
noncomputable def crrSpecNode (p disc : ℝ) (payoff : ℕ → ℝ) : ℕ → ℕ → ℝ
  | 0, i => payoff i
  | k + 1, i => disc * (p * crrSpecNode p disc payoff k i +
      (1 - p) * crrSpecNode p disc payoff k (i + 1))

/-- Modelled from the spec for the refinement claim C3: the root value of the
backward induction started from the `steps + 1` terminal payoffs
`max(0, S * u^(steps-i) * d^i - K)`, with no early-exercise comparison at any
node. -/
noncomputable def crrSpecPrice (S K T r sigma : ℝ) (steps : ℕ) : ℝ :=
  crrSpecNode (crrP T r sigma steps) (Real.exp (-r * crrDt T steps))
    (fun i => max 0 (S * crrU T sigma steps ^ (steps - i) *
      crrD T sigma steps ^ i - K)) steps 0

lemma crrLayerStep_cons (p disc a b : ℝ) (l : List ℝ) :
    crrLayerStep p disc (a :: b :: l) =
      ((p * a + (1 - p) * b) * disc) :: crrLayerStep p disc (b :: l) := by
  simp [crrLayerStep]

lemma map_range_succ_eq_cons (m : ℕ) (f : ℕ → ℝ) :
    (List.range (m + 1)).map f =
      f 0 :: (List.range m).map fun i => f (i + 1) := by
  rw [List.range_succ_eq_map, List.map_cons, List.map_map]
  rfl

/-- One sweep sends the layer `[f 0, …, f m]` to
`[(p f 0 + (1-p) f 1) disc, …]`. -/
lemma crrLayerStep_map_range (p disc : ℝ) (m : ℕ) (f : ℕ → ℝ) :
    crrLayerStep p disc ((List.range (m + 1)).map f) =
      (List.range m).map fun i => (p * f i + (1 - p) * f (i + 1)) * disc := by
  apply List.ext_getElem
  · simp [crrLayerStep]
  · intro i h1 h2
    simp [crrLayerStep, List.getElem_zipWith, List.getElem_tail]

/-- Iterating the sweep computes the spec-side node values. -/
lemma crrIterate_map_range (p disc : ℝ) (payoff : ℕ → ℝ) :
    ∀ (k j m : ℕ),
      (crrLayerStep p disc)^[k]
          ((List.range (k + m + 1)).map fun i => crrSpecNode p disc payoff j i) =
        (List.range (m + 1)).map fun i => crrSpecNode p disc payoff (j + k) i := by
  intro k
  induction k with
  | zero => intro j m; simp
  | succ k ih =>
    intro j m
    rw [Function.iterate_succ_apply]
    have hstep :
        crrLayerStep p disc
            ((List.range (k + 1 + m + 1)).map fun i => crrSpecNode p disc payoff j i) =
          (List.range (k + m + 1)).map fun i => crrSpecNode p disc payoff (j + 1) i := by
      have h1 : k + 1 + m + 1 = (k + m + 1) + 1 := by omega
      rw [h1, crrLayerStep_map_range p disc (k + m + 1)]
      refine List.map_congr_left fun i _ => ?_
      show (p * crrSpecNode p disc payoff j i +
          (1 - p) * crrSpecNode p disc payoff j (i + 1)) * disc = _
      simp only [crrSpecNode]
      ring
    have hj : j + 1 + k = j + (k + 1) := by omega
    rw [hstep, ih (j + 1) m, hj]

/-- Claim C3: with the risk-neutral probability in `[0, 1]` (so the
no-arbitrage guard does not fire) and `steps ≥ 1`, the lattice price equals
the spec-described backward induction: `steps + 1` terminal payoffs
`max(0, S u^(steps-i) d^i - K)` repeatedly replaced by discounted
probability-weighted child averages down to the root, with no early-exercise
comparison at any node. -/
theorem C3_lattice_backward_induction (S K T r sigma : ℝ) (steps : ℕ)
    (hn : 1 ≤ steps) (h0 : 0 ≤ crrP T r sigma steps)
    (h1 : crrP T r sigma steps ≤ 1) :
    calculateBinomialPrice S K T r sigma steps = crrSpecPrice S K T r sigma steps := by
  unfold calculateBinomialPrice
  rw [if_neg (by push_neg; exact ⟨h0, h1⟩)]
  unfold crrSpecPrice
  have hterm : crrTerminal S K (crrU T sigma steps) (crrD T sigma steps) steps =
      (List.range (steps + 0 + 1)).map fun i =>
        crrSpecNode (crrP T r sigma steps) (Real.exp (-r * crrDt T steps))
          (fun i => max 0 (S * crrU T sigma steps ^ (steps - i) *
            crrD T sigma steps ^ i - K)) 0 i := by
    simp [crrTerminal, crrSpecNode]
  rw [hterm,
    crrIterate_map_range (crrP T r sigma steps) (Real.exp (-r * crrDt T steps))
      (fun i => max 0 (S * crrU T sigma steps ^ (steps - i) *
        crrD T sigma steps ^ i - K)) steps 0 0]
  simp [List.range_succ]

/-- Witness for C3 at `S = 100`, `K = 105`, `T = 1`, `r = 0`, `σ = 0`,
`steps = 1`: there `u = d = 1` and `p = 0/0 = 0 ∈ [0,1]`. -/
theorem C3_lattice_backward_induction_witness :
    1 ≤ 1 ∧ 0 ≤ crrP 1 0 0 1 ∧ crrP 1 0 0 1 ≤ 1 ∧
      calculateBinomialPrice 100 105 1 0 0 1 = crrSpecPrice 100 105 1 0 0 1 := by
  have hp : crrP 1 0 0 1 = 0 := by
    unfold crrP crrD crrU crrDt
    simp
  exact ⟨le_rfl, by rw [hp], by rw [hp]; norm_num,
    C3_lattice_backward_induction 100 105 1 0 0 1 le_rfl (by rw [hp])
      (by rw [hp]; norm_num)⟩

/-- Claim C4: whenever the computed risk-neutral probability is negative or
exceeds `1`, the lattice pricer returns price `0` (the guard branch), raising
no error. -/
theorem C4_invalid_probability_returns_zero (S K T r sigma : ℝ) (steps : ℕ)
    (h : crrP T r sigma steps < 0 ∨ crrP T r sigma steps > 1) :
    calculateBinomialPrice S K T r sigma steps = 0 := by
  unfold calculateBinomialPrice
  rw [if_pos h]

/-- Witness for C4: at `T = 1`, `r = 1`, `σ = 0.1`, `steps = 1` the
probability `p = (e - e^(-0.1)) / (e^(0.1) - e^(-0.1))` exceeds `1`, and the
price is `0`. -/
theorem C4_invalid_probability_returns_zero_witness :
    (crrP 1 1 0.1 1 < 0 ∨ crrP 1 1 0.1 1 > 1) ∧
      calculateBinomialPrice 100 100 1 1 0.1 1 = 0 := by
  have hd : crrDt 1 1 = 1 := by unfold crrDt; norm_num
  have hu : crrU 1 0.1 1 = Real.exp 0.1 := by
    unfold crrU; rw [hd, Real.sqrt_one, mul_one]
  have hgt : crrP 1 1 0.1 1 > 1 := by
    unfold crrP crrD
    rw [hd, hu, mul_one]
    have h1 : (1 : ℝ) < Real.exp 0.1 := Real.one_lt_exp_iff.mpr (by norm_num)
    have hpos : 0 < Real.exp 0.1 - 1 / Real.exp 0.1 := by
      have : 1 / Real.exp 0.1 < 1 := by
        rw [div_lt_one (Real.exp_pos 0.1)]; exact h1
      linarith
    rw [gt_iff_lt, lt_div_iff₀ hpos]
    have hee : Real.exp 0.1 < Real.exp 1 := Real.exp_lt_exp.mpr (by norm_num)
    linarith
  exact ⟨Or.inr hgt,
    C4_invalid_probability_returns_zero 100 100 1 1 0.1 1 (Or.inr hgt)⟩

/-! ### VolatilityForecaster: the GARCH(1,1) forecast loop

Source: the `GarchModel` forecast loop in `src/features/models.ts`
(lines 371-396 of the concatenated file): fixed parameters
`omega = 0.000001`, `alpha = 0.1`, `beta = 0.88`, and per forecast step
`lastVariance = omega + alpha * (returns[returns.length - 1] ** 2) +
beta * lastVariance` — the last observed squared return is re-applied at
EVERY step, it is not replaced by the evolving variance. -/

/-- The variance sequence produced by the implemented loop: `eps2` is the
held-fixed last observed squared return, `v0` the seed variance. -/
noncomputable def garchSeq (eps2 v0 : ℝ) : ℕ → ℝ
  | 0 => v0
  | n + 1 => 0.000001 + 0.1 * eps2 + 0.88 * garchSeq eps2 v0 n

lemma garchSeq_closed_form (eps2 v0 : ℝ) (n : ℕ) :
    garchSeq eps2 v0 n =
      (0.000001 + 0.1 * eps2) / (1 - 0.88) +
        0.88 ^ n * (v0 - (0.000001 + 0.1 * eps2) / (1 - 0.88)) := by
  induction n with
  | zero => simp [garchSeq]
  | succ n ih =>
    show 0.000001 + 0.1 * eps2 + 0.88 * garchSeq eps2 v0 n = _
    rw [ih, pow_succ]
    have h : (1 : ℝ) - 0.88 ≠ 0 := by norm_num
    field_simp
    ring

/-- The implemented iteration converges to `(omega + alpha * eps2)/(1 - beta)`,
a fixed point of the map `v ↦ omega + alpha * eps2 + beta * v`. -/
lemma garchSeq_tendsto (eps2 v0 : ℝ) :
    Tendsto (garchSeq eps2 v0) atTop
      (nhds ((0.000001 + 0.1 * eps2) / (1 - 0.88))) := by
  have hpow : Tendsto (fun n : ℕ => (0.88 : ℝ) ^ n) atTop (nhds 0) :=
    tendsto_pow_atTop_nhds_zero_of_lt_one (by norm_num) (by norm_num)
  have h2 := (hpow.mul_const (v0 - (0.000001 + 0.1 * eps2) / (1 - 0.88))).const_add
    ((0.000001 + 0.1 * eps2) / (1 - 0.88))
  rw [zero_mul, add_zero] at h2
  exact h2.congr fun n => (garchSeq_closed_form eps2 v0 n).symm

/-- Claim C5, counterexample: iterating the implemented recursion with no new
shocks (`eps2 = 0`) from the seed variance `0.0001` does NOT converge to the
unconditional variance `omega / (1 - alpha - beta) = 5e-5`; the limit is
`omega / (1 - beta) ≈ 8.33e-6`. -/
theorem C5_counterexample :
    ¬ Tendsto (garchSeq 0 0.0001) atTop
        (nhds (0.000001 / (1 - 0.1 - 0.88))) := by
  intro hcon
  have h := garchSeq_tendsto 0 0.0001
  have heq := tendsto_nhds_unique hcon h
  norm_num at heq

/-- Claim C5, amended: the implemented iteration (which re-applies the fixed
last squared return `eps2` at every step) converges to
`(omega + alpha * eps2)/(1 - beta)`; this equals the unconditional variance
`omega/(1 - alpha - beta)` exactly when `eps2` itself equals the
unconditional variance, and in particular not for `eps2 = 0`. -/
theorem C5_garch_limit (eps2 v0 : ℝ) :
    Tendsto (garchSeq eps2 v0) atTop
      (nhds ((0.000001 + 0.1 * eps2) / (1 - 0.88))) ∧
    ((0.000001 + 0.1 * eps2) / (1 - 0.88) = 0.000001 / (1 - 0.1 - 0.88) ↔
      eps2 = 0.000001 / (1 - 0.1 - 0.88)) := by
  refine ⟨garchSeq_tendsto eps2 v0, ?_⟩
  constructor <;> intro h
  · rw [div_eq_div_iff (by norm_num) (by norm_num)] at h
    linarith
  · rw [h]; norm_num

/-! ### CIR model glue: the Feller-condition flag

Source: the `chartPaths` `useMemo` of
`src/features/interest_rate_models/InterestRateModel.tsx` lines 54-62: the
flag `fellerConditionMet = 2 * a * b >= sigma ** 2` is computed on the raw
slider values, while the generator is called as
`generateCIRPaths(r0 / 100, a, b / 100, sigma / 100, T)`. -/

/-- `2 * a * b >= sigma ** 2` exactly as computed by the component, on the
raw (percentage-valued) `b` and `sigma`. -/
def fellerConditionMet (a b sigma : ℝ) : Prop := 2 * a * b ≥ sigma ^ 2

/-- The argument tuple `(r0 / 100, a, b / 100, sigma / 100, T)` passed to
`generateCIRPaths`. -/
noncomputable def cirGeneratorArgs (r0 T a b sigma : ℝ) : ℝ × ℝ × ℝ × ℝ × ℝ :=
  (r0 / 100, a, b / 100, sigma / 100, T)

/-- Claim C6, counterexample: at slider values `a = 0.3`, `b = 3`, `σ = 3`
the reported flag is false (`2·0.3·3 = 1.8 < 9 = σ²`) although the Feller
condition `2ab ≥ σ²` HOLDS for the decimal values `b/100`, `σ/100` passed to
the path generator (`0.018 ≥ 0.0009`). -/
theorem C6_counterexample :
    ¬ (fellerConditionMet 0.3 3 3 ↔
        2 * (cirGeneratorArgs 2 5 0.3 3 3).2.1 *
            (cirGeneratorArgs 2 5 0.3 3 3).2.2.1 ≥
          (cirGeneratorArgs 2 5 0.3 3 3).2.2.2.1 ^ 2) := by
  unfold fellerConditionMet cirGeneratorArgs
  norm_num

/-- Claim C6, amended: the flag is evaluated on the raw percentage-valued `b`
and `σ` (with `a` unscaled), so in terms of the decimal mean `b/100` and
volatility `σ/100` handed to the generator it is true exactly when
`2·a·b_dec ≥ 100·σ_dec²` — a condition 100 times stricter than the Feller
condition, not the Feller condition itself. -/
theorem C6_feller_flag (r0 T a b sigma : ℝ) :
    fellerConditionMet a b sigma ↔
      2 * (cirGeneratorArgs r0 T a b sigma).2.1 *
          (cirGeneratorArgs r0 T a b sigma).2.2.1 ≥
        100 * (cirGeneratorArgs r0 T a b sigma).2.2.2.1 ^ 2 := by
  unfold fellerConditionMet cirGeneratorArgs
  constructor <;> intro h <;> nlinarith [h]

/-! ### PathSimulator: GBM, portfolio GBM, jump-diffusion, CIR

Sources: `generatePaths` (MonteCarloModel, `src/features/models.ts` lines
91-117), `generatePortfolioPaths`
(`src/features/portfolio_simulator/PortfolioSimulator.tsx`, 100 steps),
`generateJumpPaths` (MertonJumpDiffusionModel, 252 steps), `generateCIRPaths`
(`src/features/interest_rate_models/InterestRateModel.tsx`, 252 steps).
Each path is determined by its stream of standard-normal draws `Z` (and, for
jump-diffusion, the uniform draws `U` deciding jumps and the jump-size draws
`Zjump`); quantifying over the streams covers every generated path. -/

/-- Value of a GBM Monte Carlo path after `j` steps:
`currentPrice *= Math.exp(drift + diffusion * randomNormal())` with
`drift = (r - 0.5*sigma*sigma)*dt`, `diffusion = sigma*Math.sqrt(dt)`,
`dt = T/steps`. -/
noncomputable def gbmVals (S0 r sigma T : ℝ) (steps : ℕ) (Z : ℕ → ℝ) : ℕ → ℝ
  | 0 => S0
  | j + 1 => gbmVals S0 r sigma T steps Z j *
      Real.exp ((r - 0.5 * sigma * sigma) * (T / steps) +
        sigma * Real.sqrt (T / steps) * Z (j + 1))

/-- Value of a portfolio GBM path after `j` steps (`generatePortfolioPaths`
uses 100 steps): `currentValue *= Math.exp(drift + diffusion)` with
`drift = (mean - 0.5*vol**2)*dt`, `diffusion = vol*Math.sqrt(dt)*Z`. -/
noncomputable def portfolioVals (V0 mean vol T : ℝ) (Z : ℕ → ℝ) : ℕ → ℝ
  | 0 => V0
  | j + 1 => portfolioVals V0 mean vol T Z j *
      Real.exp ((mean - 0.5 * vol ^ 2) * (T / 100) +
        vol * Real.sqrt (T / 100) * Z (j + 1))

/-- Value of a Merton jump-diffusion path after `j` steps (252 steps): the
jump factor is `exp(mu + delta*Zjump) - 1` when the uniform draw falls below
`lambda*dt` and `0` otherwise, and the price is multiplied by
`Math.exp(drift + diffusion) * (1 + jump)` with the compensated drift. -/
noncomputable def jumpVals (S0 T r sigma lambda mu delta : ℝ)
    (U Z Zjump : ℕ → ℝ) : ℕ → ℝ
  | 0 => S0
  | j + 1 => jumpVals S0 T r sigma lambda mu delta U Z Zjump j *
      Real.exp ((r - 0.5 * sigma * sigma -
          lambda * (Real.exp (mu + 0.5 * delta * delta) - 1)) * (T / 252) +
        sigma * Real.sqrt (T / 252) * Z (j + 1)) *
      (1 + if U (j + 1) < lambda * (T / 252)
           then Real.exp (mu + delta * Zjump (j + 1)) - 1 else 0)

/-- Rate of a CIR path after `j` steps (252 steps): full-truncation Euler,
`diffusion = sigma * Math.sqrt(Math.max(0, r)) * dW` with
`dW = Z * Math.sqrt(dt)`, then the clamp `r = Math.max(0, r)`. -/
noncomputable def cirRate (r0 a b sigma T : ℝ) (Z : ℕ → ℝ) : ℕ → ℝ
  | 0 => r0
  | j + 1 =>
      max 0 (cirRate r0 a b sigma T Z j +
        a * (b - cirRate r0 a b sigma T Z j) * (T / 252) +
        sigma * Real.sqrt (max 0 (cirRate r0 a b sigma T Z j)) *
          (Z (j + 1) * Real.sqrt (T / 252)))

/-- Claim C8: for every parameter setting, every draw stream, and every
non-negative initial value, every value on every simulated path — GBM,
portfolio GBM, Merton jump-diffusion and clamped CIR — is non-negative. -/
theorem C8_paths_nonneg (S0 V0 r0 r sigma mean vol a b sigmaR T lambda mu delta : ℝ)
    (steps : ℕ) (Z U Zjump : ℕ → ℝ)
    (hS : 0 ≤ S0) (hV : 0 ≤ V0) (hr : 0 ≤ r0) :
    (∀ j, 0 ≤ gbmVals S0 r sigma T steps Z j) ∧
    (∀ j, 0 ≤ portfolioVals V0 mean vol T Z j) ∧
    (∀ j, 0 ≤ jumpVals S0 T r sigma lambda mu delta U Z Zjump j) ∧
    (∀ j, 0 ≤ cirRate r0 a b sigmaR T Z j) := by
  refine ⟨fun j => ?_, fun j => ?_, fun j => ?_, fun j => ?_⟩
  · induction j with
    | zero => exact hS
    | succ j ih => exact mul_nonneg ih (Real.exp_pos _).le
  · induction j with
    | zero => exact hV
    | succ j ih => exact mul_nonneg ih (Real.exp_pos _).le
  · induction j with
    | zero => exact hS
    | succ j ih =>
      refine mul_nonneg (mul_nonneg ih (Real.exp_pos _).le) ?_
      split_ifs with h
      · have := Real.exp_pos (mu + delta * Zjump (j + 1))
        linarith
      · norm_num
  · induction j with
    | zero => exact hr
    | succ j ih => exact le_max_left 0 _

/-- Witness for C8: concrete non-negative initial values, all shocks zero. -/
theorem C8_paths_nonneg_witness :
    (0 ≤ (100 : ℝ)) ∧ (0 ≤ (1000000 : ℝ)) ∧ (0 ≤ (0.02 : ℝ)) ∧
    ((∀ j, 0 ≤ gbmVals 100 0.05 0.2 1 100 (fun _ => 0) j) ∧
     (∀ j, 0 ≤ portfolioVals 1000000 0.08 0.15 1 (fun _ => 0) j) ∧
     (∀ j, 0 ≤ jumpVals 100 1 0.05 0.2 0.5 (-0.1) 0.2
        (fun _ => 0) (fun _ => 0) (fun _ => 0) j) ∧
     (∀ j, 0 ≤ cirRate 0.02 0.3 0.03 0.05 1 (fun _ => 0) j)) :=
  ⟨by norm_num, by norm_num, by norm_num,
    C8_paths_nonneg 100 1000000 0.02 0.05 0.2 0.08 0.15 0.3 0.03 0.05 1
      0.5 (-0.1) 0.2 100 (fun _ => 0) (fun _ => 0) (fun _ => 0)
      (by norm_num) (by norm_num) (by norm_num)⟩

/-! ### RiskEngine: historical and parametric VaR / CVaR

Source: the `useMemo` of `src/features/var_cvar/VaRCVaRModel.tsx` lines
42-62, taken as a function of an arbitrary return series (the component
derives its series from the S&P 500 data, the claim quantifies over every
series): returns are sorted ascending, `alpha = 1 - c`,
`varIndex = Math.floor(alpha * N)`,
`VaR = -returns[varIndex] * sqrt(h)`, the tail is
`returns.slice(0, varIndex)` and `CVaR` is minus its mean times `sqrt(h)`
(or `0` when the tail is empty); the parametric branch uses the sample mean,
the unbiased sample variance and the Acklam inverse normal CDF. -/

/-- Numerator polynomial of the Acklam tail branches (`c1 .. c6` row of the
source), evaluated at `q`. -/
noncomputable def acklamTailNum (q : ℝ) : ℝ :=
  (((((-7.784894002430293e-3 * q + -0.3223964580411365) * q +
    -2.400758277161838) * q + -2.549732539343734) * q +
    4.374664141464968) * q + 2.938163982698783)

/-- Denominator polynomial of the Acklam tail branches (`d1 .. d4` row). -/
noncomputable def acklamTailDen (q : ℝ) : ℝ :=
  ((((7.784695709041462e-3 * q + 0.3224671290700398) * q +
    2.445134137142996) * q + 3.754408661907416) * q + 1)

/-- Numerator of the Acklam central branch (`a1 .. a6` row), evaluated at
`q = p - 0.5` with `r = q * q`. -/
noncomputable def acklamCentralNum (q : ℝ) : ℝ :=
  (((((-39.69683028665376 * (q * q) + 220.9460984245205) * (q * q) +
    -275.9285104469687) * (q * q) + 138.3577518672690) * (q * q) +
    -30.66479806614716) * (q * q) + 2.506628277459239) * q

/-- Denominator of the Acklam central branch (`b1 .. b5` row). -/
noncomputable def acklamCentralDen (q : ℝ) : ℝ :=
  (((((-54.47609879822406 * (q * q) + 161.5858368580409) * (q * q) +
    -155.6989798598866) * (q * q) + 66.80131188771972) * (q * q) +
    -13.28068155288572) * (q * q) + 1)

/-- `normalInverseCDF` from the source (Acklam rational approximation with
tail branches at `p_low = 0.02425`, `p_high = 1 - p_low`). -/
noncomputable def normalInverseCDF (p : ℝ) : ℝ :=
  if p < 0.02425 then
    acklamTailNum (Real.sqrt (-2 * Real.log p)) /
      acklamTailDen (Real.sqrt (-2 * Real.log p))
  else if p ≤ 1 - 0.02425 then
    acklamCentralNum (p - 0.5) / acklamCentralDen (p - 0.5)
  else
    -acklamTailNum (Real.sqrt (-2 * Real.log (1 - p))) /
      acklamTailDen (Real.sqrt (-2 * Real.log (1 - p)))

/-- `dailyReturns.sort((a, b) => a - b)`: ascending sort. -/
noncomputable def sortedReturns (returns : List ℝ) : List ℝ :=
  returns.insertionSort (· ≤ ·)

/-- `varIndex = Math.floor(alpha * dailyReturns.length)` with `alpha = 1 - c`. -/
noncomputable def varIndex (returns : List ℝ) (c : ℝ) : ℕ :=
  (⌊(1 - c) * (returns.length : ℝ)⌋).toNat

/-- `historicalVaR = -dailyReturns[varIndex] * Math.sqrt(horizon)` on the
sorted series. -/
noncomputable def historicalVaR (returns : List ℝ) (c h : ℝ) : ℝ :=
  -(sortedReturns returns).getD (varIndex returns c) 0 * Real.sqrt h

/-- `losses = dailyReturns.slice(0, varIndex)`;
`historicalCVaR = losses.length > 0 ? -mean(losses) * sqrt(horizon) : 0`. -/
noncomputable def historicalCVaR (returns : List ℝ) (c h : ℝ) : ℝ :=
  if 0 < ((sortedReturns returns).take (varIndex returns c)).length then
    -(((sortedReturns returns).take (varIndex returns c)).sum /
        (((sortedReturns returns).take (varIndex returns c)).length : ℝ)) *
      Real.sqrt h
  else 0

/-- The sample mean of the return series. -/
noncomputable def sampleMean (returns : List ℝ) : ℝ :=
  returns.sum / (returns.length : ℝ)

/-- The unbiased sample standard deviation (`variance` divides by `N - 1`). -/
noncomputable def sampleStd (returns : List ℝ) : ℝ :=
  Real.sqrt ((returns.map fun v => (v - sampleMean returns) ^ 2).sum /
    ((returns.length : ℝ) - 1))

/-- `parametricVaR = -(mean + stdDev * normalInverseCDF(alpha)) *
Math.sqrt(horizon)`. -/
noncomputable def parametricVaR (returns : List ℝ) (c h : ℝ) : ℝ :=
  -(sampleMean returns + sampleStd returns * normalInverseCDF (1 - c)) *
    Real.sqrt h

/-- `parametricCVaR = alpha**-1 * stdDev * (1/sqrt(2*PI)) *
exp(-(normalInverseCDF(alpha)**2)/2) * Math.sqrt(horizon)` — note the sample
mean does NOT appear. -/
noncomputable def parametricCVaR (returns : List ℝ) (c h : ℝ) : ℝ :=
  (1 - c)⁻¹ * sampleStd returns * (1 / Real.sqrt (2 * Real.pi)) *
    Real.exp (-(normalInverseCDF (1 - c) ^ 2) / 2) * Real.sqrt h

/-- Claim C2, counterexample: for the return series `[-0.5, -0.5]` with
`c = 0.95`, `h = 1`, the historical tail below the VaR index is empty, so
historical CVaR is `0` while historical VaR is `0.5`; and the parametric
CVaR (which omits the sample mean) is `0` while parametric VaR is `0.5`.
Both methods violate `CVaR ≥ VaR`. -/
theorem C2_counterexample :
    historicalCVaR [-0.5, -0.5] 0.95 1 < historicalVaR [-0.5, -0.5] 0.95 1 ∧
    parametricCVaR [-0.5, -0.5] 0.95 1 < parametricVaR [-0.5, -0.5] 0.95 1 := by
  have hvi : varIndex [-0.5, -0.5] 0.95 = 0 := by
    unfold varIndex
    norm_num [Int.floor_eq_zero_iff, Set.mem_Ico]
  have hsorted : sortedReturns [-0.5, -0.5] = [-0.5, -0.5] := by
    unfold sortedReturns
    simp [List.insertionSort, List.orderedInsert]
  have hstd : sampleStd [-0.5, -0.5] = 0 := by
    unfold sampleStd sampleMean
    norm_num
  constructor
  · unfold historicalVaR historicalCVaR
    rw [hvi, hsorted]
    norm_num [Real.sqrt_one]
  · unfold parametricVaR parametricCVaR
    rw [hstd]
    unfold sampleMean
    norm_num [Real.sqrt_one]

/-- Claim C2, amended: `CVaR ≥ VaR` holds for the historical method whenever
the tail slice below the VaR index is nonempty (`varIndex ≥ 1`); when the
tail is empty the CVaR is `0` and the inequality can fail.  For the
parametric method `CVaR ≥ VaR` holds whenever
`mean + std·z_alpha ≥ 0` (then `VaR ≤ 0 ≤ CVaR`); because the parametric
CVaR formula omits the sample mean, a sufficiently negative mean violates
the inequality. -/
theorem C2_cvar_ge_var (returns : List ℝ) (c h : ℝ)
    (hlen : 2 ≤ returns.length) (hc0 : 0 < c) (hc1 : c < 1) (hh : 1 ≤ h) :
    (1 ≤ varIndex returns c →
      historicalVaR returns c h ≤ historicalCVaR returns c h) ∧
    (0 ≤ sampleMean returns + sampleStd returns * normalInverseCDF (1 - c) →
      parametricVaR returns c h ≤ parametricCVaR returns c h) := by
  constructor
  · intro hk1
    have hN : 0 < returns.length := by omega
    have hkN : varIndex returns c < returns.length := by
      unfold varIndex
      have hNR : (0 : ℝ) < (returns.length : ℝ) := by exact_mod_cast hN
      have hx : (1 - c) * (returns.length : ℝ) < (returns.length : ℝ) :=
        mul_lt_of_lt_one_left hNR (by linarith)
      have hfl : ⌊(1 - c) * (returns.length : ℝ)⌋ < (returns.length : ℤ) := by
        rw [Int.floor_lt]
        exact_mod_cast hx
      omega
    have hlen_s : (sortedReturns returns).length = returns.length :=
      List.length_insertionSort _ _
    have hkS : varIndex returns c < (sortedReturns returns).length := by
      rw [hlen_s]; exact hkN
    have hgetD : (sortedReturns returns).getD (varIndex returns c) 0 =
        (sortedReturns returns).get ⟨varIndex returns c, hkS⟩ := by
      simp [List.getD_eq_getElem?_getD, List.getElem?_eq_getElem hkS,
        List.get_eq_getElem]
    have hdroplen : 0 < ((sortedReturns returns).drop (varIndex returns c)).length := by
      rw [List.length_drop]; omega
    have hmem : (sortedReturns returns).get ⟨varIndex returns c, hkS⟩ ∈
        (sortedReturns returns).drop (varIndex returns c) := by
      have hget0 : ((sortedReturns returns).drop (varIndex returns c)).get ⟨0, hdroplen⟩ =
          (sortedReturns returns).get ⟨varIndex returns c, hkS⟩ := by
        simp [List.get_eq_getElem, List.getElem_drop]
      rw [← hget0]
      exact List.get_mem _ _ _
    have hpair : List.Pairwise (· ≤ ·)
        ((sortedReturns returns).take (varIndex returns c) ++
          (sortedReturns returns).drop (varIndex returns c)) := by
      rw [List.take_append_drop]
      exact List.sorted_insertionSort _ returns
    obtain ⟨-, -, hcross⟩ := List.pairwise_append.mp hpair
    have hall : ∀ x ∈ (sortedReturns returns).take (varIndex returns c),
        x ≤ (sortedReturns returns).get ⟨varIndex returns c, hkS⟩ :=
      fun x hx => hcross x hx _ hmem
    have hsum := List.sum_le_card_nsmul
      ((sortedReturns returns).take (varIndex returns c)) _ hall
    have htklen : ((sortedReturns returns).take (varIndex returns c)).length =
        varIndex returns c := by
      rw [List.length_take]; omega
    have hkpos : (0 : ℝ) < (varIndex returns c : ℝ) := by
      have : 0 < varIndex returns c := hk1
      exact_mod_cast this
    have hmean : ((sortedReturns returns).take (varIndex returns c)).sum /
        (((sortedReturns returns).take (varIndex returns c)).length : ℝ) ≤
        (sortedReturns returns).get ⟨varIndex returns c, hkS⟩ := by
      rw [htklen, div_le_iff₀ hkpos]
      rw [htklen, nsmul_eq_mul] at hsum
      linarith [hsum]
    unfold historicalVaR historicalCVaR
    rw [if_pos (by omega : 0 < ((sortedReturns returns).take (varIndex returns c)).length),
      hgetD]
    exact mul_le_mul_of_nonneg_right (neg_le_neg hmean) (Real.sqrt_nonneg h)
  · intro hpar
    have hα : (0 : ℝ) < 1 - c := by linarith
    have hVaR : parametricVaR returns c h ≤ 0 := by
      unfold parametricVaR
      have h1 : 0 ≤ (sampleMean returns +
          sampleStd returns * normalInverseCDF (1 - c)) * Real.sqrt h :=
        mul_nonneg hpar (Real.sqrt_nonneg h)
      nlinarith [h1]
    have hCVaR : 0 ≤ parametricCVaR returns c h := by
      unfold parametricCVaR
      have h2 : (0 : ℝ) ≤ (1 - c)⁻¹ := (inv_pos.mpr hα).le
      have h3 : (0 : ℝ) ≤ sampleStd returns := Real.sqrt_nonneg _
      have h4 : (0 : ℝ) ≤ 1 / Real.sqrt (2 * Real.pi) := by positivity
      have h5 : (0 : ℝ) ≤ Real.exp (-(normalInverseCDF (1 - c) ^ 2) / 2) :=
        (Real.exp_pos _).le
      have h6 : (0 : ℝ) ≤ Real.sqrt h := Real.sqrt_nonneg h
      have := mul_nonneg (mul_nonneg (mul_nonneg (mul_nonneg h2 h3) h4) h5) h6
      exact this
    linarith

/-- Witness for C2: the series `[-0.01, 0.01, -0.01, 0.03]` with `c = 0.5`,
`h = 1` has `varIndex = 2 ≥ 1`, and `normalInverseCDF(0.5) = 0` makes the
parametric side condition hold with `mean = 0.005 ≥ 0`. -/
theorem C2_cvar_ge_var_witness :
    2 ≤ ([-0.01, 0.01, -0.01, 0.03] : List ℝ).length ∧ (0 : ℝ) < 0.5 ∧
    (0.5 : ℝ) < 1 ∧ (1 : ℝ) ≤ 1 ∧
    ((1 ≤ varIndex [-0.01, 0.01, -0.01, 0.03] 0.5 →
      historicalVaR [-0.01, 0.01, -0.01, 0.03] 0.5 1 ≤
        historicalCVaR [-0.01, 0.01, -0.01, 0.03] 0.5 1) ∧
    (0 ≤ sampleMean [-0.01, 0.01, -0.01, 0.03] +
        sampleStd [-0.01, 0.01, -0.01, 0.03] * normalInverseCDF (1 - 0.5) →
      parametricVaR [-0.01, 0.01, -0.01, 0.03] 0.5 1 ≤
        parametricCVaR [-0.01, 0.01, -0.01, 0.03] 0.5 1)) := by
  refine ⟨by norm_num, by norm_num, by norm_num, le_rfl,
    C2_cvar_ge_var [-0.01, 0.01, -0.01, 0.03] 0.5 1 (by norm_num)
      (by norm_num) (by norm_num) le_rfl⟩

/-! ### SignalStateMachine: the pairs-trading signal loop

Source: the signal logic inside the `useMemo` of the PairsTradingModel
(`src/unnamed/part_005` lines 34-70): `inTrade` is `0` (no trade, the Flat
state), `1` (short spread) or `-1` (long spread); a z-score is computed only
once `i >= lookback - 1` (the window is full), and the emitted signal kinds
are the source strings SHORT, LONG and EXIT, modelled by the constructors
`enterShort`, `enterLong`, `exitSpread`. -/

/-- The kind of an emitted trade signal. -/
inductive SignalType where
  | enterShort
  | enterLong
  | exitSpread
deriving DecidableEq

/-- Whether a signal opens a position (SHORT or LONG, as opposed to EXIT). -/
def isEnter : SignalType → Bool
  | SignalType.enterShort => true
  | SignalType.enterLong => true
  | SignalType.exitSpread => false

/-- `window = mergedData.slice(i - lookback + 1, i + 1).map(price ratio)`:
the `lookback` entries of the ratio series ending at index `i`. -/
def ratioWindow (rs : List ℝ) (lookback i : ℕ) : List ℝ :=
  (rs.drop (i + 1 - lookback)).take lookback

/-- `movingAvg = sum / lookback`. -/
noncomputable def windowAvg (rs : List ℝ) (lookback i : ℕ) : ℝ :=
  (ratioWindow rs lookback i).sum / (lookback : ℝ)

/-- `movingStd = Math.sqrt(variance)` with the population variance
(divide by `lookback`). -/
noncomputable def windowStd (rs : List ℝ) (lookback i : ℕ) : ℝ :=
  Real.sqrt (((ratioWindow rs lookback i).map fun v =>
    (v - windowAvg rs lookback i) ^ 2).sum / (lookback : ℝ))

/-- `zScore = (ratio - movingAvg) / movingStd`. -/
noncomputable def zScoreAt (rs : List ℝ) (lookback i : ℕ) : ℝ :=
  (rs.getD i 0 - windowAvg rs lookback i) / windowStd rs lookback i

/-- One evaluation of the signal logic given the current `inTrade` flag and
the z-score: the branch structure of the source, returning the new flag and
the optionally emitted signal. -/
noncomputable def signalStep (entryZ exitZ : ℝ) (inTrade : ℤ) (z : ℝ) :
    ℤ × Option SignalType :=
  if inTrade = 0 then
    if z > entryZ then (1, some SignalType.enterShort)
    else if z < -entryZ then (-1, some SignalType.enterLong)
    else (0, none)
  else if inTrade = 1 then
    if z < exitZ then (0, some SignalType.exitSpread) else (1, none)
  else if inTrade = -1 then
    if z > -exitZ then (0, some SignalType.exitSpread) else (-1, none)
  else (inTrade, none)

/-- One loop iteration at index `i`: the signal logic runs only when
`i >= lookback - 1` (expressed over ℕ as `lookback ≤ i + 1`), and an emitted
signal is appended to the accumulated list. -/
noncomputable def processIndex (rs : List ℝ) (lookback : ℕ) (entryZ exitZ : ℝ)
    (acc : ℤ × List SignalType) (i : ℕ) : ℤ × List SignalType :=
  if lookback ≤ i + 1 then
    ((signalStep entryZ exitZ acc.1 (zScoreAt rs lookback i)).1,
     acc.2 ++ (signalStep entryZ exitZ acc.1 (zScoreAt rs lookback i)).2.toList)
  else acc

/-- The whole loop over the data series: final `inTrade` flag and the emitted
signal list, starting from `inTrade = 0` and no signals. -/
noncomputable def runSignals (rs : List ℝ) (lookback : ℕ) (entryZ exitZ : ℝ) :
    ℤ × List SignalType :=
  (List.range rs.length).foldl (processIndex rs lookback entryZ exitZ) (0, [])

/-- A signal list alternates when the signal at every even position opens a
position and the signal at every odd position is an EXIT. -/
def alternatingSignals (l : List SignalType) : Prop :=
  ∀ (k : ℕ) (h : k < l.length), (isEnter (l.get ⟨k, h⟩) = true ↔ k % 2 = 0)

lemma alternatingSignals_append (l : List SignalType) (e : SignalType)
    (hl : alternatingSignals l) (he : isEnter e = true ↔ l.length % 2 = 0) :
    alternatingSignals (l ++ [e]) := by
  intro k hk
  have hklen : k < l.length + 1 := by simpa using hk
  by_cases hkl : k < l.length
  · have hg : (l ++ [e]).get ⟨k, hk⟩ = l.get ⟨k, hkl⟩ := by
      simp [List.get_eq_getElem, List.getElem_append_left hkl]
    rw [hg]
    exact hl k hkl
  · have hke : k = l.length := by omega
    subst hke
    have hg : (l ++ [e]).get ⟨l.length, hk⟩ = e := by
      simp [List.get_eq_getElem]
    rw [hg]
    exact he

/-- The loop invariant: the emitted signals alternate, the counts of entries
and exits are determined by the parity of the list length, and the `inTrade`
flag is `0` exactly on even lengths (`1` or `-1` on odd lengths). -/
def sigInv (acc : ℤ × List SignalType) : Prop :=
  alternatingSignals acc.2 ∧
  2 * acc.2.countP (fun e => isEnter e) = acc.2.length + acc.2.length % 2 ∧
  2 * acc.2.countP (fun e => !isEnter e) = acc.2.length - acc.2.length % 2 ∧
  ((acc.1 = 0 ∧ acc.2.length % 2 = 0) ∨
    ((acc.1 = 1 ∨ acc.1 = -1) ∧ acc.2.length % 2 = 1))

lemma isEnter_enterShort : isEnter SignalType.enterShort = true := rfl

lemma isEnter_enterLong : isEnter SignalType.enterLong = true := rfl

lemma isEnter_exitSpread : isEnter SignalType.exitSpread = false := rfl

lemma processIndex_inv (rs : List ℝ) (lookback : ℕ) (entryZ exitZ : ℝ)
    (acc : ℤ × List SignalType) (i : ℕ) (h : sigInv acc) :
    sigInv (processIndex rs lookback entryZ exitZ acc i) := by
  obtain ⟨halt, hcE, hcX, hstate⟩ := h
  unfold processIndex
  split_ifs with hw
  · unfold signalStep
    rcases hstate with ⟨h0, hev⟩ | ⟨h1, hodd⟩
    · rw [h0, if_pos rfl]
      split_ifs with hz1 hz2
      · show sigInv (1, acc.2 ++ [SignalType.enterShort])
        refine ⟨alternatingSignals_append _ _ halt (by simp [isEnter_enterShort, hev]),
          ?_, ?_, Or.inr ⟨Or.inl rfl, by simp [List.length_append]; omega⟩⟩
        · simp only [List.countP_append, List.countP_singleton, List.length_append,
            List.length_singleton, isEnter_enterShort, if_true]
          omega
        · simp [List.countP_append, List.countP_singleton, isEnter_enterShort]
          omega
      · show sigInv (-1, acc.2 ++ [SignalType.enterLong])
        refine ⟨alternatingSignals_append _ _ halt (by simp [isEnter_enterLong, hev]),
          ?_, ?_, Or.inr ⟨Or.inr rfl, by simp [List.length_append]; omega⟩⟩
        · simp only [List.countP_append, List.countP_singleton, List.length_append,
            List.length_singleton, isEnter_enterLong, if_true]
          omega
        · simp [List.countP_append, List.countP_singleton, isEnter_enterLong]
          omega
      · show sigInv (0, acc.2 ++ [])
        rw [List.append_nil]
        exact ⟨halt, hcE, hcX, Or.inl ⟨rfl, hev⟩⟩
    · rcases h1 with h1 | h1 <;> rw [h1]
      · rw [if_neg (by norm_num), if_pos rfl]
        split_ifs with hz
        · show sigInv (0, acc.2 ++ [SignalType.exitSpread])
          refine ⟨alternatingSignals_append _ _ halt (by simp [isEnter_exitSpread, hodd]),
            ?_, ?_, Or.inl ⟨rfl, by simp [List.length_append]; omega⟩⟩
          · simp [List.countP_append, List.countP_singleton, isEnter_exitSpread]
            omega
          · simp [List.countP_append, List.countP_singleton, isEnter_exitSpread]
            omega
        · show sigInv (1, acc.2 ++ [])
          rw [List.append_nil]
          exact ⟨halt, hcE, hcX, Or.inr ⟨Or.inl rfl, hodd⟩⟩
      · rw [if_neg (by norm_num), if_neg (by norm_num), if_pos rfl]
        split_ifs with hz
        · show sigInv (0, acc.2 ++ [SignalType.exitSpread])
          refine ⟨alternatingSignals_append _ _ halt (by simp [isEnter_exitSpread, hodd]),
            ?_, ?_, Or.inl ⟨rfl, by simp [List.length_append]; omega⟩⟩
          · simp [List.countP_append, List.countP_singleton, isEnter_exitSpread]
            omega
          · simp [List.countP_append, List.countP_singleton, isEnter_exitSpread]
            omega
        · show sigInv (-1, acc.2 ++ [])
          rw [List.append_nil]
          exact ⟨halt, hcE, hcX, Or.inr ⟨Or.inr rfl, hodd⟩⟩
  · exact ⟨halt, hcE, hcX, hstate⟩

lemma foldl_processIndex_inv (rs : List ℝ) (lookback : ℕ) (entryZ exitZ : ℝ) :
    ∀ (idxs : List ℕ) (acc : ℤ × List SignalType), sigInv acc →
      sigInv (idxs.foldl (processIndex rs lookback entryZ exitZ) acc) := by
  intro idxs
  induction idxs with
  | nil => intro acc h; exact h
  | cons j js ih =>
    intro acc h
    exact ih _ (processIndex_inv rs lookback entryZ exitZ acc j h)

/-- Claim C7: once the window is full (`lookback ≤ i + 1`), with
`z = (ratio - movingAvg)/movingStd`, the machine makes exactly the claimed
transitions — Flat (`0`) to ShortSpread (`1`) emitting SHORT when
`z > entryZ`; Flat to LongSpread (`-1`) emitting LONG when `z < -entryZ`;
ShortSpread to Flat emitting EXIT when `z < exitZ`; LongSpread to Flat
emitting EXIT when `z > -exitZ`; in every other case state and signal list
are unchanged — and before the window is full nothing is evaluated.  The
spec's implicit precondition `entryZ > exitZ ≥ 0` is assumed (it makes the
two Flat triggers mutually exclusive). -/
theorem C7_signal_transitions (rs : List ℝ) (lookback : ℕ) (entryZ exitZ : ℝ)
    (hexit : 0 ≤ exitZ) (hentry : exitZ < entryZ)
    (acc : ℤ × List SignalType) (i : ℕ) :
    (i + 1 < lookback → processIndex rs lookback entryZ exitZ acc i = acc) ∧
    (lookback ≤ i + 1 →
      ((acc.1 = 0 ∧ zScoreAt rs lookback i > entryZ →
          processIndex rs lookback entryZ exitZ acc i =
            (1, acc.2 ++ [SignalType.enterShort])) ∧
       (acc.1 = 0 ∧ zScoreAt rs lookback i < -entryZ →
          processIndex rs lookback entryZ exitZ acc i =
            (-1, acc.2 ++ [SignalType.enterLong])) ∧
       (acc.1 = 1 ∧ zScoreAt rs lookback i < exitZ →
          processIndex rs lookback entryZ exitZ acc i =
            (0, acc.2 ++ [SignalType.exitSpread])) ∧
       (acc.1 = -1 ∧ zScoreAt rs lookback i > -exitZ →
          processIndex rs lookback entryZ exitZ acc i =
            (0, acc.2 ++ [SignalType.exitSpread])) ∧
       ((acc.1 = 0 ∧ ¬ zScoreAt rs lookback i > entryZ ∧
           ¬ zScoreAt rs lookback i < -entryZ) ∨
        (acc.1 = 1 ∧ ¬ zScoreAt rs lookback i < exitZ) ∨
        (acc.1 = -1 ∧ ¬ zScoreAt rs lookback i > -exitZ) →
          processIndex rs lookback entryZ exitZ acc i = acc))) := by
  obtain ⟨s, l⟩ := acc
  constructor
  · intro hlt
    unfold processIndex
    rw [if_neg (by omega)]
  · intro hge
    refine ⟨?_, ?_, ?_, ?_, ?_⟩
    · rintro ⟨h0, hz⟩
      have hs : s = 0 := h0
      subst hs
      unfold processIndex signalStep
      rw [if_pos hge, if_pos rfl, if_pos hz]
      rfl
    · rintro ⟨h0, hz⟩
      have hs : s = 0 := h0
      subst hs
      have hnot : ¬ zScoreAt rs lookback i > entryZ := by
        push_neg
        linarith
      unfold processIndex signalStep
      rw [if_pos hge, if_pos rfl, if_neg hnot, if_pos hz]
      rfl
    · rintro ⟨h1, hz⟩
      have hs : s = 1 := h1
      subst hs
      unfold processIndex signalStep
      rw [if_pos hge, if_neg (by norm_num), if_pos rfl, if_pos hz]
      rfl
    · rintro ⟨h1, hz⟩
      have hs : s = -1 := h1
      subst hs
      unfold processIndex signalStep
      rw [if_pos hge, if_neg (by norm_num), if_neg (by norm_num), if_pos rfl,
        if_pos hz]
      rfl
    · rintro (⟨h0, hn1, hn2⟩ | ⟨h1, hn⟩ | ⟨hm, hn⟩)
      · have hs : s = 0 := h0
        subst hs
        unfold processIndex signalStep
        rw [if_pos hge, if_pos rfl, if_neg hn1, if_neg hn2]
        show ((0 : ℤ), l ++ []) = ((0 : ℤ), l)
        rw [List.append_nil]
      · have hs : s = 1 := h1
        subst hs
        unfold processIndex signalStep
        rw [if_pos hge, if_neg (by norm_num), if_pos rfl, if_neg hn]
        show ((1 : ℤ), l ++ []) = ((1 : ℤ), l)
        rw [List.append_nil]
      · have hs : s = -1 := hm
        subst hs
        unfold processIndex signalStep
        rw [if_pos hge, if_neg (by norm_num), if_neg (by norm_num), if_pos rfl,
          if_neg hn]
        show ((-1 : ℤ), l ++ []) = ((-1 : ℤ), l)
        rw [List.append_nil]

/-- Witness for C7 at `entryZ = 2`, `exitZ = 0.5`, the empty ratio series,
`lookback = 0`, the initial accumulator and `i = 0`. -/
theorem C7_signal_transitions_witness :
    (0 : ℝ) ≤ 0.5 ∧ (0.5 : ℝ) < 2 ∧
    ((0 + 1 < 0 → processIndex [] 0 2 0.5 ((0 : ℤ), ([] : List SignalType)) 0 =
        ((0 : ℤ), ([] : List SignalType))) ∧
     (0 ≤ 0 + 1 →
       ((((0 : ℤ), ([] : List SignalType)).1 = 0 ∧ zScoreAt [] 0 0 > 2 →
           processIndex [] 0 2 0.5 ((0 : ℤ), ([] : List SignalType)) 0 =
             (1, ((0 : ℤ), ([] : List SignalType)).2 ++ [SignalType.enterShort])) ∧
        (((0 : ℤ), ([] : List SignalType)).1 = 0 ∧ zScoreAt [] 0 0 < -2 →
           processIndex [] 0 2 0.5 ((0 : ℤ), ([] : List SignalType)) 0 =
             (-1, ((0 : ℤ), ([] : List SignalType)).2 ++ [SignalType.enterLong])) ∧
        (((0 : ℤ), ([] : List SignalType)).1 = 1 ∧ zScoreAt [] 0 0 < 0.5 →
           processIndex [] 0 2 0.5 ((0 : ℤ), ([] : List SignalType)) 0 =
             (0, ((0 : ℤ), ([] : List SignalType)).2 ++ [SignalType.exitSpread])) ∧
        (((0 : ℤ), ([] : List SignalType)).1 = -1 ∧ zScoreAt [] 0 0 > -0.5 →
           processIndex [] 0 2 0.5 ((0 : ℤ), ([] : List SignalType)) 0 =
             (0, ((0 : ℤ), ([] : List SignalType)).2 ++ [SignalType.exitSpread])) ∧
        ((((0 : ℤ), ([] : List SignalType)).1 = 0 ∧ ¬ zScoreAt [] 0 0 > 2 ∧
            ¬ zScoreAt [] 0 0 < -2) ∨
         (((0 : ℤ), ([] : List SignalType)).1 = 1 ∧ ¬ zScoreAt [] 0 0 < 0.5) ∨
         (((0 : ℤ), ([] : List SignalType)).1 = -1 ∧ ¬ zScoreAt [] 0 0 > -0.5) →
           processIndex [] 0 2 0.5 ((0 : ℤ), ([] : List SignalType)) 0 =
             ((0 : ℤ), ([] : List SignalType)))))) :=
  ⟨by norm_num, by norm_num,
    C7_signal_transitions [] 0 2 0.5 (by norm_num) (by norm_num)
      ((0 : ℤ), ([] : List SignalType)) 0⟩

/-- Claim C10: for every ratio series and parameter setting the emitted
signal sequence strictly alternates — the signal at every even position is an
Enter (the first, if any, in particular) and at every odd position an Exit,
so an Exit follows only an Enter and no second Enter occurs without an
intervening Exit — and the final state is Flat (`0`) exactly when the number
of Enter signals equals the number of Exit signals. -/
theorem C10_signal_alternation (rs : List ℝ) (lookback : ℕ)
    (entryZ exitZ : ℝ) :
    alternatingSignals (runSignals rs lookback entryZ exitZ).2 ∧
    (∀ h0 : 0 < (runSignals rs lookback entryZ exitZ).2.length,
      isEnter ((runSignals rs lookback entryZ exitZ).2.get ⟨0, h0⟩) = true) ∧
    ((runSignals rs lookback entryZ exitZ).1 = 0 ↔
      (runSignals rs lookback entryZ exitZ).2.countP (fun e => isEnter e) =
        (runSignals rs lookback entryZ exitZ).2.countP (fun e => !isEnter e)) := by
  have hinv : sigInv (runSignals rs lookback entryZ exitZ) := by
    unfold runSignals
    apply foldl_processIndex_inv
    refine ⟨?_, rfl, rfl, Or.inl ⟨rfl, rfl⟩⟩
    intro k hk
    simp at hk
  obtain ⟨halt, hcE, hcX, hstate⟩ := hinv
  refine ⟨halt, ?_, ?_⟩
  · intro h0
    have h := halt 0 h0
    simpa using h
  · rcases hstate with ⟨hs, hev⟩ | ⟨hs, hodd⟩
    · exact ⟨fun _ => by omega, fun _ => hs⟩
    · constructor
      · intro h0
        rcases hs with hs | hs <;> rw [h0] at hs <;> exact absurd hs (by norm_num)
      · intro hcnt
        exfalso
        omega
